import Mathlib

/-!
Shallow embedding of the feature-generator core of this repository:
the files autogluon/utils/tabular/features/generators/text_special.py
(class TextSpecialFeatureGenerator) and abstract.py
(class AbstractFeatureGenerator).

Modelling choices:
* a Python string value is a list of characters (ASCII character
  classification stands in for the Python Unicode predicates isupper,
  islower, isdigit and the word-character regex class);
* a Python float is an exact rational wrapped in PVal, which also records
  the NaN and infinity outcomes of pandas element-wise division, so the
  fillna(0) step of the source is modelled exactly;
* a pandas DataFrame is a row index plus an ordered association list of
  named columns; column assignment overwrites in place when the name is
  already present and appends otherwise, as pandas does;
* the raw-type-group utility get_type_family_groups_df and the class
  FeatureTypesMetadata are imported by abstract.py from modules that are
  not part of this repository excerpt; only the special type groups, the
  part the specification talks about, are kept in the generator state.
-/

namespace TextSpecialModel

/-- A Python string value, modelled as its list of characters. -/
abbrev Value := List Char

/-- Whitespace characters recognised by the Python str.split method
(ASCII fragment: space, tab, newline, carriage return, vertical tab,
form feed). -/
def isSpacePy (c : Char) : Bool :=
  c = ' ' || c = '\t' || c = '\n' || c = '\r' || c = '\x0b' || c = '\x0c'

/-- The Python expression string.split() with no separator: maximal runs
of non-whitespace characters, with empty tokens dropped. -/
def pySplit : Value → List Value
  | [] => []
  | c :: cs =>
    if isSpacePy c then pySplit cs
    else (c :: cs.takeWhile (fun d => !isSpacePy d)) ::
      pySplit (cs.dropWhile (fun d => !isSpacePy d))
termination_by s => s.length
decreasing_by
  · simp
  · have h : (cs.dropWhile (fun d => !isSpacePy d)).length ≤ cs.length :=
      (List.dropWhile_sublist _).length_le
    simp
    omega

/-- Source text_special.py, word_count: len(string.split()). -/
def word_count (s : Value) : Nat := (pySplit s).length

/-- Source text_special.py, char_count: len(string). -/
def char_count (s : Value) : Nat := s.length

/-- The Python expression string.replace(' ', ''): every space character
removed (only the plain space, not other whitespace). -/
def replaceSpace (s : Value) : Value := s.filter (fun c => c != ' ')

/-- A word character in the sense of the regex class used by
special_ratio: alphanumeric or underscore. -/
def isWordChar (c : Char) : Bool := c.isAlphanum || c = '_'

/-- Source text_special.py, special_ratio: strip spaces, return 0 on the
empty result, otherwise the fraction of characters surviving the
substitution that deletes every word character. -/
def special_ratio (s : Value) : ℚ :=
  let t := replaceSpace s
  if t = [] then 0
  else ((t.filter (fun c => !isWordChar c)).length : ℚ) / (t.length : ℚ)

/-- Source text_special.py, digit_ratio: strip spaces, return 0 on the
empty result, otherwise the fraction of digit characters. -/
def digit_ratio (s : Value) : ℚ :=
  let t := replaceSpace s
  if t = [] then 0
  else ((t.countP (fun c => c.isDigit)) : ℚ) / (t.length : ℚ)

/-- Source text_special.py, lower_ratio: strip spaces, return 0 on the
empty result, otherwise the fraction of lower-case characters. -/
def lower_ratio (s : Value) : ℚ :=
  let t := replaceSpace s
  if t = [] then 0
  else ((t.countP (fun c => c.isLower)) : ℚ) / (t.length : ℚ)

/-- Source text_special.py, capital_ratio: strip spaces, return 0 on the
empty result, otherwise the fraction of upper-case characters. -/
def capital_ratio (s : Value) : ℚ :=
  let t := replaceSpace s
  if t = [] then 0
  else ((t.countP (fun c => c.isUpper)) : ℚ) / (t.length : ℚ)

/-- Source text_special.py, symbol_in_string_count: 0 on the empty
string, otherwise the number of characters equal (as one-character
strings) to the given symbol string. -/
def symbol_in_string_count (s : Value) (character : String) : Nat :=
  if s = [] then 0 else s.countP (fun c => String.mk [c] == character)

/-- A pandas cell value: an exact rational, NaN, or a signed infinity. -/
inductive PVal where
  | fin (q : ℚ)
  | nan
  | pinf
  | ninf

/-- Element-wise pandas division of two numeric cells: division by zero
yields NaN when the numerator is zero and a signed infinity otherwise. -/
def pvalDiv : PVal → PVal → PVal
  | .fin a, .fin b =>
    if b = 0 then (if a = 0 then .nan else (if a > 0 then .pinf else .ninf))
    else .fin (a / b)
  | _, _ => .nan

/-- The pandas fillna(0) step on one cell: NaN becomes 0, everything
else is kept. -/
def PVal.fillna0 : PVal → PVal
  | .nan => .fin 0
  | v => v

/-- A cell is finite when it is an actual rational. -/
def PVal.isFinite : PVal → Bool
  | .fin _ => true
  | _ => false

/-- The char_count column built for a series of values, as in the list
comprehension of _generate_text_special. -/
def char_count_col (xs : List Value) : List PVal :=
  xs.map (fun v => PVal.fin (char_count v))

/-- The symbol_count column built for a series of values and one symbol,
as in the list comprehension of _generate_text_special. -/
def symbol_count_col (xs : List Value) (s : String) : List PVal :=
  xs.map (fun v => PVal.fin (symbol_in_string_count v s))

/-- The symbol_ratio column of _generate_text_special: element-wise
division of the symbol_count column by the char_count column followed by
fillna(0). -/
def ratio_col_vals (xs : List Value) (s : String) : List PVal :=
  (List.zipWith pvalDiv (symbol_count_col xs s) (char_count_col xs)).map PVal.fillna0

/-- Specification-side definition, used only to compare with the source
word_count: running count of token starts, with a flag telling whether
the previous position was a boundary (start of string or whitespace). -/
def tokenStarts : Value → Bool → Nat
  | [], _ => 0
  | c :: cs, atBoundary =>
    if isSpacePy c then tokenStarts cs true
    else (if atBoundary then 1 else 0) + tokenStarts cs false

/-- Specification-side definition: the number of whitespace-delimited
tokens of a value, counted as the number of maximal runs of
non-whitespace characters. -/
def specTokenCount (s : Value) : Nat := tokenStarts s true

theorem tokenStarts_false_dropWhile (cs : Value) :
    tokenStarts cs false = tokenStarts (cs.dropWhile (fun d => !isSpacePy d)) true := by
  induction cs with
  | nil => rfl
  | cons d cs ih =>
    by_cases hd : isSpacePy d
    · simp [tokenStarts, List.dropWhile, hd]
    · simp [tokenStarts, List.dropWhile, hd, ih]

/-- C9: for every string value, char_count equals the number of
characters in the value, and word_count equals the number of
whitespace-delimited tokens. -/
theorem char_count_word_count_spec (v : Value) :
    char_count v = v.length ∧ word_count v = specTokenCount v := by
  refine ⟨rfl, ?_⟩
  unfold word_count specTokenCount
  induction v using pySplit.induct with
  | case1 => simp [pySplit, tokenStarts]
  | case2 c cs h ih =>
    rw [pySplit, if_pos h]
    simp [tokenStarts, h, ih]
  | case3 c cs h ih =>
    rw [pySplit, if_neg h]
    simp only [List.length_cons, tokenStarts, h, Bool.false_eq_true, if_false, if_true]
    rw [tokenStarts_false_dropWhile]
    simp [ih]
    omega

/-- C4: for every value whose space-stripped form is empty, the four
base ratio statistics all equal 0. -/
theorem stripped_empty_ratios_zero (v : Value) (h : replaceSpace v = []) :
    capital_ratio v = 0 ∧ lower_ratio v = 0 ∧ digit_ratio v = 0 ∧ special_ratio v = 0 := by
  unfold capital_ratio lower_ratio digit_ratio special_ratio
  simp [h]

/-- Witness for C4 at the two-space value. -/
theorem stripped_empty_ratios_zero_witness :
    replaceSpace [' ', ' '] = [] ∧
      (capital_ratio [' ', ' '] = 0 ∧ lower_ratio [' ', ' '] = 0 ∧
        digit_ratio [' ', ' '] = 0 ∧ special_ratio [' ', ' '] = 0) :=
  ⟨by decide, stripped_empty_ratios_zero [' ', ' '] (by decide)⟩

theorem upper_lower_not_both (c : Char) : ¬(c.isUpper = true ∧ c.isLower = true) := by
  rintro ⟨h1, h2⟩
  simp [Char.isUpper, Char.isLower] at h1 h2
  exact absurd (UInt32.le_trans h2.1 h1.2) (by decide)

theorem countP_upper_add_lower_le (t : List Char) :
    t.countP (fun c => c.isUpper) + t.countP (fun c => c.isLower) ≤ t.length := by
  induction t with
  | nil => simp
  | cons c t ih =>
    rw [List.countP_cons, List.countP_cons]
    simp only [List.length_cons]
    by_cases hu : c.isUpper = true
    · have hl : ¬(c.isLower = true) := fun hl => upper_lower_not_both c ⟨hu, hl⟩
      simp [hu, hl]
      omega
    · by_cases hl : c.isLower = true
      · simp [hu, hl]
        omega
      · simp [hu, hl]
        omega

theorem countP_upper_add_lower_eq (t : List Char) (hall : ∀ c ∈ t, c.isAlpha = true) :
    t.countP (fun c => c.isUpper) + t.countP (fun c => c.isLower) = t.length := by
  induction t with
  | nil => simp
  | cons c t ih =>
    have hc : c.isUpper = true ∨ c.isLower = true := by
      have := hall c (by simp)
      simpa [Char.isAlpha] using this
    have hrec := ih (fun d hd => hall d (by simp [hd]))
    rw [List.countP_cons, List.countP_cons]
    simp only [List.length_cons]
    rcases hc with hu | hl
    · have hl : ¬(c.isLower = true) := fun hl => upper_lower_not_both c ⟨hu, hl⟩
      simp [hu, hl]
      omega
    · have hu : ¬(c.isUpper = true) := fun hu => upper_lower_not_both c ⟨hu, hl⟩
      simp [hu, hl]
      omega

/-- C5: for every string value the sum of capital_ratio and lower_ratio
is at most 1, and it equals 1 whenever the space-stripped string is
non-empty and wholly alphabetic. -/
theorem capital_add_lower_le_one (v : Value) :
    capital_ratio v + lower_ratio v ≤ 1 ∧
      ((replaceSpace v ≠ [] ∧ ∀ c ∈ replaceSpace v, c.isAlpha = true) →
        capital_ratio v + lower_ratio v = 1) := by
  by_cases h : replaceSpace v = []
  · refine ⟨by simp [capital_ratio, lower_ratio, h], fun hc => absurd h hc.1⟩
  · have hn : 0 < (replaceSpace v).length := List.length_pos.mpr h
    have hq : (0 : ℚ) < ((replaceSpace v).length : ℚ) := by exact_mod_cast hn
    constructor
    · unfold capital_ratio lower_ratio
      simp only [h, if_false]
      rw [div_add_div_same, div_le_one hq]
      have hle := countP_upper_add_lower_le (replaceSpace v)
      exact_mod_cast hle
    · rintro ⟨-, hall⟩
      unfold capital_ratio lower_ratio
      simp only [h, if_false]
      rw [div_add_div_same]
      have heq := countP_upper_add_lower_eq (replaceSpace v) hall
      rw [show (((replaceSpace v).countP (fun c => c.isUpper) : ℚ) +
          ((replaceSpace v).countP (fun c => c.isLower) : ℚ)) =
          ((((replaceSpace v).countP (fun c => c.isUpper) +
            (replaceSpace v).countP (fun c => c.isLower) : Nat)) : ℚ) by push_cast; ring, heq]
      exact div_self (ne_of_gt hq)

/-- Witness for C5 at a wholly alphabetic two-letter value. -/
theorem capital_add_lower_le_one_witness :
    capital_ratio ['A', 'b'] + lower_ratio ['A', 'b'] ≤ 1 ∧
      capital_ratio ['A', 'b'] + lower_ratio ['A', 'b'] = 1 :=
  ⟨(capital_add_lower_le_one ['A', 'b']).1,
   (capital_add_lower_le_one ['A', 'b']).2 (by decide)⟩

theorem symbol_count_le_char_count (v : Value) (s : String) :
    symbol_in_string_count v s ≤ char_count v := by
  unfold symbol_in_string_count char_count
  by_cases h : v = []
  · simp [h]
  · rw [if_neg h]
    exact List.countP_le_length _

theorem ratio_cell_eq (v : Value) (s : String) :
    PVal.fillna0 (pvalDiv (.fin (symbol_in_string_count v s)) (.fin (char_count v))) =
      .fin (if char_count v = 0 then 0
        else (symbol_in_string_count v s : ℚ) / (char_count v : ℚ)) := by
  by_cases h : char_count v = 0
  · have hv : v = [] := List.length_eq_zero.mp h
    subst hv
    simp [symbol_in_string_count, char_count, pvalDiv, PVal.fillna0]
  · have hq : ((char_count v : ℚ)) ≠ 0 := by exact_mod_cast h
    simp [pvalDiv, hq, PVal.fillna0, h]

theorem ratio_col_vals_eq (xs : List Value) (s : String) :
    ratio_col_vals xs s = xs.map (fun v =>
      PVal.fillna0 (pvalDiv (.fin (symbol_in_string_count v s)) (.fin (char_count v)))) := by
  unfold ratio_col_vals symbol_count_col char_count_col
  induction xs with
  | nil => rfl
  | cons v vs ih => simp [ih]

/-- C3: every symbol_ratio cell equals symbol_count divided by
char_count with the division-by-zero outcome replaced by 0; in
particular the cell is 0 when char_count is 0 and is never a non-finite
value. -/
theorem symbol_ratio_fillna_spec (xs : List Value) (s : String) :
    ratio_col_vals xs s = xs.map (fun v => PVal.fin (if char_count v = 0 then 0
        else (symbol_in_string_count v s : ℚ) / (char_count v : ℚ))) ∧
      ∀ p ∈ ratio_col_vals xs s, p.isFinite = true := by
  have hmap : ratio_col_vals xs s = xs.map (fun v => PVal.fin (if char_count v = 0 then 0
      else (symbol_in_string_count v s : ℚ) / (char_count v : ℚ))) := by
    rw [ratio_col_vals_eq]
    exact List.map_congr_left (fun v _ => ratio_cell_eq v s)
  refine ⟨hmap, fun p hp => ?_⟩
  rw [hmap] at hp
  obtain ⟨v, -, hv⟩ := List.mem_map.mp hp
  rw [← hv]
  rfl

/-- C10: a configured symbol whose length is not exactly 1 never matches
any single character, so its symbol_count is 0 for every value and its
symbol_ratio column is identically 0. -/
theorem multichar_symbol_count_zero (s : String) (hs : s.length ≠ 1) :
    (∀ v : Value, symbol_in_string_count v s = 0) ∧
      (∀ xs : List Value, ratio_col_vals xs s = xs.map (fun _ => PVal.fin 0)) := by
  have hcount : ∀ v : Value, symbol_in_string_count v s = 0 := by
    intro v
    unfold symbol_in_string_count
    by_cases h : v = []
    · simp [h]
    · rw [if_neg h]
      apply List.countP_eq_zero.mpr
      intro c _
      intro hceq
      have heq : String.mk [c] = s := eq_of_beq hceq
      have : s.length = 1 := by
        rw [← heq]
        rfl
      exact hs this
  refine ⟨hcount, fun xs => ?_⟩
  rw [ratio_col_vals_eq]
  apply List.map_congr_left
  intro v _
  rw [hcount v]
  by_cases h : char_count v = 0
  · have hv : v = [] := List.length_eq_zero.mp h
    subst hv
    simp [char_count, pvalDiv, PVal.fillna0]
  · have hq : ((char_count v : ℚ)) ≠ 0 := by exact_mod_cast h
    simp [pvalDiv, hq, PVal.fillna0]

/-- Witness for C10 at the two-character symbol ab. -/
theorem multichar_symbol_count_zero_witness :
    symbol_in_string_count ['a', 'b'] ("ab") = 0 ∧
      ratio_col_vals [['a', 'b']] ("ab") = [['a', 'b']].map (fun _ => PVal.fin 0) :=
  ⟨(multichar_symbol_count_zero ("ab") (by decide)).1 ['a', 'b'],
   (multichar_symbol_count_zero ("ab") (by decide)).2 [['a', 'b']]⟩

/-- An input table: a row index plus named string-valued columns. -/
structure InTable where
  idx : List Int
  cols : List (String × List Value)

/-- Selecting one column of an input table by name (the pandas expression
X[name] on a present column; absent columns, a caller contract violation
handled by pandas and not by this core, give the empty column). -/
def InTable.getCol (X : InTable) (f : String) : List Value :=
  match X.cols.find? (fun p => p.1 == f) with
  | some p => p.2
  | none => []

/-- Whether an input table has a column of the given name. -/
def InTable.hasCol (X : InTable) (f : String) : Bool :=
  X.cols.any (fun p => p.1 == f)

/-- The columns of an output table: an ordered association list of named
numeric columns. -/
abbrev Cols := List (String × List PVal)

/-- An output table: a row index plus named numeric columns. -/
structure OutTable where
  idx : List Int
  cols : Cols

/-- Reading one output column by name, as the pandas expression X[name]. -/
def dfGetCol (cols : Cols) (name : String) : List PVal :=
  match cols.find? (fun p => p.1 == name) with
  | some p => p.2
  | none => []

/-- Whether a named column is present. -/
def dfHasCol (cols : Cols) (name : String) : Bool :=
  cols.any (fun p => p.1 == name)

/-- The pandas column assignment X[name] = v: overwrite in place when
the name is present, append the new column otherwise. -/
def dfAssign (cols : Cols) (name : String) (v : List PVal) : Cols :=
  if dfHasCol cols name then cols.map (fun p => if p.1 == name then (name, v) else p)
  else cols ++ [(name, v)]

/-- One iteration of the symbol loop of _generate_text_special: assign
the symbol_count column, assign the symbol_ratio column as the
element-wise quotient of the stored symbol_count and char_count columns,
then fill its NaN entries with 0 in place. -/
def symStep (feature : String) (xs : List Value) (cols : Cols) (symbol : String) : Cols :=
  let cols1 := dfAssign cols (feature ++ ".symbol_count." ++ symbol) (symbol_count_col xs symbol)
  let raw := List.zipWith pvalDiv (dfGetCol cols1 (feature ++ ".symbol_count." ++ symbol))
    (dfGetCol cols1 (feature ++ ".char_count"))
  let cols2 := dfAssign cols1 (feature ++ ".symbol_ratio." ++ symbol) raw
  dfAssign cols2 (feature ++ ".symbol_ratio." ++ symbol)
    ((dfGetCol cols2 (feature ++ ".symbol_ratio." ++ symbol)).map PVal.fillna0)

/-- Source _generate_text_special: build, in order, the six base
statistic columns and then the two per-symbol columns for each
configured symbol, over the index of the incoming series. -/
def _generate_text_special (symbols : List String) (feature : String)
    (idx : List Int) (xs : List Value) : OutTable :=
  let c1 := dfAssign [] (feature ++ ".char_count") (char_count_col xs)
  let c2 := dfAssign c1 (feature ++ ".word_count") (xs.map (fun v => PVal.fin (word_count v)))
  let c3 := dfAssign c2 (feature ++ ".capital_ratio") (xs.map (fun v => PVal.fin (capital_ratio v)))
  let c4 := dfAssign c3 (feature ++ ".lower_ratio") (xs.map (fun v => PVal.fin (lower_ratio v)))
  let c5 := dfAssign c4 (feature ++ ".digit_ratio") (xs.map (fun v => PVal.fin (digit_ratio v)))
  let c6 := dfAssign c5 (feature ++ ".special_ratio") (xs.map (fun v => PVal.fin (special_ratio v)))
  ⟨idx, symbols.foldl (symStep feature xs) c6⟩

/-- Source _generate_features_text_special: when the configured input
column list is non-empty, generate the per-column tables and concatenate
them side by side over the shared index; otherwise return an empty table
on the input index. -/
def _generate_features_text_special (features_in : List String) (symbols : List String)
    (X : InTable) : OutTable :=
  if !features_in.isEmpty then
    ⟨X.idx, (features_in.map (fun f => (_generate_text_special symbols f X.idx (X.getCol f)).cols)).flatten⟩
  else ⟨X.idx, []⟩

/-- The special-type label given by the source to every generated
column (named S_TEXT_SPECIAL in feature_metadata and documented as
text_special in the class docstring). -/
def S_TEXT_SPECIAL : String := "text_special"

/-- State of an AbstractFeatureGenerator instance.  The raw-type
metadata computed through the external get_type_family_groups_df utility
is outside this repository excerpt and is not recorded; the special type
groups, which the claims mention, are. -/
structure GenState where
  _is_fit : Bool
  features_in : Option (List String)
  features_out : Option (List String)
  specialGroups : Option (List (String × List String))
  symbols : List String

/-- The pandas selection X[fs] for a list of labels: the named columns
in the order of the list. -/
def restrict (X : InTable) (fs : List String) : InTable :=
  ⟨X.idx, fs.map (fun f => (f, X.getCol f))⟩

/-- Source TextSpecialFeatureGenerator._transform. -/
def _transform (g : GenState) (X : InTable) : OutTable :=
  _generate_features_text_special (g.features_in.getD []) g.symbols X

/-- Source TextSpecialFeatureGenerator._fit_transform: the transformed
table together with the special type groups mapping the single label
S_TEXT_SPECIAL to all output columns. -/
def _fit_transform (g : GenState) (X : InTable) : OutTable × List (String × List String) :=
  let X_out := _transform g X
  (X_out, [(S_TEXT_SPECIAL, X_out.cols.map (fun p => p.1))])

/-- The assertion message of a second fit. -/
def errAlreadyFit : String := "FeatureGenerator is already fit."

/-- The assertion message of a transform before any fit. -/
def errNotFit : String := "FeatureGenerator is not fit."

/-- Source AbstractFeatureGenerator.fit_transform: guard against a
second fit, infer the input columns when unset, restrict the table,
delegate, record the output columns and the special type groups, and
mark the generator fit. -/
def fit_transform (g : GenState) (X : InTable) : Except String (OutTable × GenState) :=
  if g._is_fit then Except.error errAlreadyFit
  else
    let fs := g.features_in.getD (X.cols.map (fun p => p.1))
    let g1 : GenState := { g with features_in := some fs }
    let out := _fit_transform g1 (restrict X fs)
    Except.ok (out.1, { g1 with
      _is_fit := true
      features_out := some (out.1.cols.map (fun p => p.1))
      specialGroups := some out.2 })

/-- Source AbstractFeatureGenerator.transform: guard against an unfit
transform, restrict the table to the fitted input columns, delegate. -/
def transform (g : GenState) (X : InTable) : Except String OutTable :=
  if !g._is_fit then Except.error errNotFit
  else Except.ok (_transform g (restrict X (g.features_in.getD [])))

theorem str_append_right_inj (f : String) {a b : String} (h : f ++ a = f ++ b) : a = b := by
  have hd := congrArg String.data h
  rw [String.data_append, String.data_append] at hd
  exact String.ext (List.append_cancel_left hd)

theorem append_ne_of_ne (f : String) {a b : String} (hab : a ≠ b) : f ++ a ≠ f ++ b :=
  fun h => hab (str_append_right_inj f h)

theorem append_ne_at (p q s t : String) (i : Nat) (hip : i < p.data.length)
    (hiq : i < q.data.length) (hc : p.data[i]? ≠ q.data[i]?) : p ++ s ≠ q ++ t := by
  intro h
  have hd := congrArg String.data h
  rw [String.data_append, String.data_append] at hd
  have h1 : (p.data ++ s.data)[i]? = p.data[i]? := List.getElem?_append_left hip
  have h2 : (q.data ++ t.data)[i]? = q.data[i]? := List.getElem?_append_left hiq
  apply hc
  rw [← h1, ← h2, hd]

theorem lit_ne_append (a p s : String) (i : Nat) (hia : i < a.data.length)
    (hip : i < p.data.length) (hc : a.data[i]? ≠ p.data[i]?) : a ≠ p ++ s := by
  intro h
  apply append_ne_at a p "" s i hia hip hc
  rw [String.append_empty]
  exact h

theorem base_ne_sym (f b pre s : String) (i : Nat) (hib : i < b.data.length)
    (hip : i < pre.data.length) (hc : b.data[i]? ≠ pre.data[i]?) :
    f ++ b ≠ f ++ pre ++ s := by
  rw [String.append_assoc]
  intro h
  exact lit_ne_append b pre s i hib hip hc (str_append_right_inj f h)

theorem sym_ne_sym (f pre1 pre2 s t : String) (i : Nat) (h1 : i < pre1.data.length)
    (h2 : i < pre2.data.length) (hc : pre1.data[i]? ≠ pre2.data[i]?) :
    f ++ pre1 ++ s ≠ f ++ pre2 ++ t := by
  rw [String.append_assoc, String.append_assoc]
  intro h
  exact append_ne_at pre1 pre2 s t i h1 h2 hc (str_append_right_inj f h)

theorem sym_inj (f pre : String) {s t : String} (h : f ++ pre ++ s = f ++ pre ++ t) : s = t := by
  rw [String.append_assoc, String.append_assoc] at h
  exact str_append_right_inj pre (str_append_right_inj f h)

theorem not_mem_names {cols : Cols} {name : String} (h : name ∉ cols.map Prod.fst) :
    ∀ p ∈ cols, p.1 ≠ name :=
  fun p hp he => h (List.mem_map.mpr ⟨p, hp, he⟩)

theorem dfHasCol_eq_false {cols : Cols} {name : String} (h : ∀ p ∈ cols, p.1 ≠ name) :
    dfHasCol cols name = false := by
  unfold dfHasCol
  rw [List.any_eq_false]
  intro p hp
  simp [h p hp]

theorem dfAssign_not_mem {cols : Cols} {name : String} {v : List PVal}
    (h : name ∉ cols.map Prod.fst) : dfAssign cols name v = cols ++ [(name, v)] := by
  unfold dfAssign
  rw [dfHasCol_eq_false (not_mem_names h)]
  simp

theorem dfGetCol_append_right_irrelevant {cols more : Cols} {name : String}
    (h : ∀ q ∈ more, q.1 ≠ name) : dfGetCol (cols ++ more) name = dfGetCol cols name := by
  unfold dfGetCol
  rw [List.find?_append]
  have hm : more.find? (fun p => p.1 == name) = none :=
    List.find?_eq_none.mpr (fun q hq => by simp [h q hq])
  rw [hm]
  cases cols.find? (fun p => p.1 == name) <;> rfl

theorem dfGetCol_append_self {cols : Cols} {name : String} {v : List PVal}
    (h : name ∉ cols.map Prod.fst) : dfGetCol (cols ++ [(name, v)]) name = v := by
  unfold dfGetCol
  rw [List.find?_append]
  have hc : cols.find? (fun p => p.1 == name) = none :=
    List.find?_eq_none.mpr (fun q hq => by simp [not_mem_names h q hq])
  rw [hc]
  simp

theorem map_overwrite_eq_self {cols : Cols} {name : String} {v : List PVal}
    (h : ∀ p ∈ cols, p.1 ≠ name) :
    cols.map (fun p => if p.1 == name then (name, v) else p) = cols := by
  induction cols with
  | nil => rfl
  | cons p ps ih =>
    have hp : p.1 ≠ name := h p (by simp)
    simp only [List.map_cons]
    rw [if_neg (by simp [hp]), ih (fun q hq => h q (by simp [hq]))]

theorem dfAssign_overwrite_last {A : Cols} {name : String} {old v : List PVal}
    (h : ∀ p ∈ A, p.1 ≠ name) :
    dfAssign (A ++ [(name, old)]) name v = A ++ [(name, v)] := by
  unfold dfAssign dfHasCol
  have hany : (A ++ [(name, old)]).any (fun p => p.1 == name) = true := by
    rw [List.any_append]
    simp
  rw [hany]
  simp only [if_true]
  rw [List.map_append, map_overwrite_eq_self h]
  simp

theorem cnt_ne_ratio (f s t : String) :
    f ++ ".symbol_count." ++ s ≠ f ++ ".symbol_ratio." ++ t :=
  sym_ne_sym f (".symbol_count.") (".symbol_ratio.") s t 8 (by decide) (by decide) (by decide)

theorem ratio_ne_cnt (f s t : String) :
    f ++ ".symbol_ratio." ++ s ≠ f ++ ".symbol_count." ++ t :=
  sym_ne_sym f (".symbol_ratio.") (".symbol_count.") s t 8 (by decide) (by decide) (by decide)

theorem char_ne_cnt (f s : String) : f ++ ".char_count" ≠ f ++ ".symbol_count." ++ s :=
  base_ne_sym f (".char_count") (".symbol_count.") s 1 (by decide) (by decide) (by decide)

theorem char_ne_ratio (f s : String) : f ++ ".char_count" ≠ f ++ ".symbol_ratio." ++ s :=
  base_ne_sym f (".char_count") (".symbol_ratio.") s 1 (by decide) (by decide) (by decide)

/-- The pair of columns the symbol loop adds for one fresh symbol. -/
def symPairCols (feature : String) (xs : List Value) (s : String) : Cols :=
  [(feature ++ ".symbol_count." ++ s, symbol_count_col xs s),
   (feature ++ ".symbol_ratio." ++ s, ratio_col_vals xs s)]

/-- The six base statistic columns of one feature. -/
def base6Cols (feature : String) (xs : List Value) : Cols :=
  [(feature ++ ".char_count", char_count_col xs),
   (feature ++ ".word_count", xs.map (fun v => PVal.fin (word_count v))),
   (feature ++ ".capital_ratio", xs.map (fun v => PVal.fin (capital_ratio v))),
   (feature ++ ".lower_ratio", xs.map (fun v => PVal.fin (lower_ratio v))),
   (feature ++ ".digit_ratio", xs.map (fun v => PVal.fin (digit_ratio v))),
   (feature ++ ".special_ratio", xs.map (fun v => PVal.fin (special_ratio v)))]

theorem symStep_eq {feature : String} {xs : List Value} {cols : Cols} {s : String}
    (hcnt : (feature ++ ".symbol_count." ++ s) ∉ cols.map Prod.fst)
    (hrat : (feature ++ ".symbol_ratio." ++ s) ∉ cols.map Prod.fst)
    (hchar : dfGetCol cols (feature ++ ".char_count") = char_count_col xs) :
    symStep feature xs cols s = cols ++ symPairCols feature xs s := by
  simp only [symStep]
  rw [dfAssign_not_mem hcnt]
  rw [dfGetCol_append_self hcnt]
  rw [dfGetCol_append_right_irrelevant
    (by intro q hq; simp only [List.mem_singleton] at hq; subst hq
        exact (char_ne_cnt feature s).symm), hchar]
  have hrat2 : (feature ++ ".symbol_ratio." ++ s) ∉
      ((cols ++ [(feature ++ ".symbol_count." ++ s, symbol_count_col xs s)]).map Prod.fst) := by
    rw [List.map_append]
    simp only [List.mem_append, List.map_cons, List.map_nil, List.mem_singleton]
    push_neg
    exact ⟨hrat, ratio_ne_cnt feature s s⟩
  rw [dfAssign_not_mem hrat2]
  rw [dfGetCol_append_self hrat2]
  rw [dfAssign_overwrite_last (not_mem_names hrat2)]
  rw [List.append_assoc]
  rfl

theorem foldl_symStep_eq (feature : String) (xs : List Value) :
    ∀ (rest : List String) (cols : Cols), rest.Nodup →
      (∀ s ∈ rest, (feature ++ ".symbol_count." ++ s) ∉ cols.map Prod.fst ∧
        (feature ++ ".symbol_ratio." ++ s) ∉ cols.map Prod.fst) →
      dfGetCol cols (feature ++ ".char_count") = char_count_col xs →
      rest.foldl (symStep feature xs) cols = cols ++ rest.flatMap (symPairCols feature xs) := by
  intro rest
  induction rest with
  | nil =>
    intro cols _ _ _
    simp
  | cons s rest ih =>
    intro cols hnd hfresh hchar
    have hs := hfresh s (by simp)
    have hstep : symStep feature xs cols s = cols ++ symPairCols feature xs s :=
      symStep_eq hs.1 hs.2 hchar
    have hnd2 := List.nodup_cons.mp hnd
    have hpair : ∀ q ∈ symPairCols feature xs s, q.1 ≠ feature ++ ".char_count" := by
      intro q hq
      simp only [symPairCols, List.mem_cons, List.mem_singleton, List.not_mem_nil] at hq
      rcases hq with hq | hq | hq
      · rw [hq]
        exact (char_ne_cnt feature s).symm
      · rw [hq]
        exact (char_ne_ratio feature s).symm
      · cases hq
    have hfresh2 : ∀ t ∈ rest, (feature ++ ".symbol_count." ++ t) ∉
        (cols ++ symPairCols feature xs s).map Prod.fst ∧
        (feature ++ ".symbol_ratio." ++ t) ∉ (cols ++ symPairCols feature xs s).map Prod.fst := by
      intro t ht
      have hts : t ≠ s := fun he => hnd2.1 (he ▸ ht)
      have hf := hfresh t (by simp [ht])
      constructor
      · rw [List.map_append]
        simp only [List.mem_append]
        push_neg
        refine ⟨hf.1, ?_⟩
        simp only [symPairCols, List.map_cons, List.map_nil, List.mem_cons,
          List.mem_singleton, List.not_mem_nil]
        push_neg
        refine ⟨fun he => hts (sym_inj feature (".symbol_count.") he), ?_, fun hx => hx⟩
        exact cnt_ne_ratio feature t s
      · rw [List.map_append]
        simp only [List.mem_append]
        push_neg
        refine ⟨hf.2, ?_⟩
        simp only [symPairCols, List.map_cons, List.map_nil, List.mem_cons,
          List.mem_singleton, List.not_mem_nil]
        push_neg
        refine ⟨ratio_ne_cnt feature t s, fun he => hts (sym_inj feature (".symbol_ratio.") he),
          fun hx => hx⟩
    have hchar2 : dfGetCol (cols ++ symPairCols feature xs s) (feature ++ ".char_count") =
        char_count_col xs := by
      rw [dfGetCol_append_right_irrelevant hpair]
      exact hchar
    rw [List.foldl_cons, hstep, ih (cols ++ symPairCols feature xs s) hnd2.2 hfresh2 hchar2]
    rw [List.append_assoc]
    rfl

theorem dfGetCol_base6_char (feature : String) (xs : List Value) :
    dfGetCol (base6Cols feature xs) (feature ++ ".char_count") = char_count_col xs := by
  unfold dfGetCol base6Cols
  rw [List.find?_cons_of_pos _ (by simp)]

theorem base6_fresh (feature : String) (xs : List Value) (s : String) :
    (feature ++ ".symbol_count." ++ s) ∉ (base6Cols feature xs).map Prod.fst ∧
      (feature ++ ".symbol_ratio." ++ s) ∉ (base6Cols feature xs).map Prod.fst := by
  constructor
  · simp only [base6Cols, List.map_cons, List.map_nil, List.mem_cons, List.not_mem_nil]
    push_neg
    refine ⟨(char_ne_cnt feature s).symm,
      (base_ne_sym feature (".word_count") (".symbol_count.") s 1
        (by decide) (by decide) (by decide)).symm,
      (base_ne_sym feature (".capital_ratio") (".symbol_count.") s 1
        (by decide) (by decide) (by decide)).symm,
      (base_ne_sym feature (".lower_ratio") (".symbol_count.") s 1
        (by decide) (by decide) (by decide)).symm,
      (base_ne_sym feature (".digit_ratio") (".symbol_count.") s 1
        (by decide) (by decide) (by decide)).symm,
      (base_ne_sym feature (".special_ratio") (".symbol_count.") s 2
        (by decide) (by decide) (by decide)).symm, fun hx => hx⟩
  · simp only [base6Cols, List.map_cons, List.map_nil, List.mem_cons, List.not_mem_nil]
    push_neg
    refine ⟨(char_ne_ratio feature s).symm,
      (base_ne_sym feature (".word_count") (".symbol_ratio.") s 1
        (by decide) (by decide) (by decide)).symm,
      (base_ne_sym feature (".capital_ratio") (".symbol_ratio.") s 1
        (by decide) (by decide) (by decide)).symm,
      (base_ne_sym feature (".lower_ratio") (".symbol_ratio.") s 1
        (by decide) (by decide) (by decide)).symm,
      (base_ne_sym feature (".digit_ratio") (".symbol_ratio.") s 1
        (by decide) (by decide) (by decide)).symm,
      (base_ne_sym feature (".special_ratio") (".symbol_ratio.") s 2
        (by decide) (by decide) (by decide)).symm, fun hx => hx⟩

theorem generate_text_special_eq (symbols : List String) (feature : String)
    (idx : List Int) (xs : List Value) (hnd : symbols.Nodup) :
    _generate_text_special symbols feature idx xs =
      ⟨idx, base6Cols feature xs ++ symbols.flatMap (symPairCols feature xs)⟩ := by
  have hm1 : (feature ++ ".char_count") ∉ List.map Prod.fst ([] : Cols) := by
    simp
  have hm2 : (feature ++ ".word_count") ∉ List.map Prod.fst
      [(feature ++ ".char_count", char_count_col xs)] := by
    intro h
    simp only [List.map_cons, List.map_nil, List.mem_singleton] at h
    exact append_ne_of_ne feature (by decide) h
  have hm3 : (feature ++ ".capital_ratio") ∉ List.map Prod.fst
      ([(feature ++ ".char_count", char_count_col xs)] ++
       [(feature ++ ".word_count", xs.map (fun v => PVal.fin (word_count v)))]) := by
    intro h
    simp only [List.map_append, List.map_cons, List.map_nil, List.mem_append,
      List.mem_singleton] at h
    rcases h with h | h
    · exact append_ne_of_ne feature (by decide) h
    · exact append_ne_of_ne feature (by decide) h
  have hm4 : (feature ++ ".lower_ratio") ∉ List.map Prod.fst
      (([(feature ++ ".char_count", char_count_col xs)] ++
        [(feature ++ ".word_count", xs.map (fun v => PVal.fin (word_count v)))]) ++
       [(feature ++ ".capital_ratio", xs.map (fun v => PVal.fin (capital_ratio v)))]) := by
    intro h
    simp only [List.map_append, List.map_cons, List.map_nil, List.mem_append,
      List.mem_singleton] at h
    rcases h with (h | h) | h
    · exact append_ne_of_ne feature (by decide) h
    · exact append_ne_of_ne feature (by decide) h
    · exact append_ne_of_ne feature (by decide) h
  have hm5 : (feature ++ ".digit_ratio") ∉ List.map Prod.fst
      ((([(feature ++ ".char_count", char_count_col xs)] ++
         [(feature ++ ".word_count", xs.map (fun v => PVal.fin (word_count v)))]) ++
        [(feature ++ ".capital_ratio", xs.map (fun v => PVal.fin (capital_ratio v)))]) ++
       [(feature ++ ".lower_ratio", xs.map (fun v => PVal.fin (lower_ratio v)))]) := by
    intro h
    simp only [List.map_append, List.map_cons, List.map_nil, List.mem_append,
      List.mem_singleton] at h
    rcases h with ((h | h) | h) | h
    · exact append_ne_of_ne feature (by decide) h
    · exact append_ne_of_ne feature (by decide) h
    · exact append_ne_of_ne feature (by decide) h
    · exact append_ne_of_ne feature (by decide) h
  have hm6 : (feature ++ ".special_ratio") ∉ List.map Prod.fst
      (((([(feature ++ ".char_count", char_count_col xs)] ++
          [(feature ++ ".word_count", xs.map (fun v => PVal.fin (word_count v)))]) ++
         [(feature ++ ".capital_ratio", xs.map (fun v => PVal.fin (capital_ratio v)))]) ++
        [(feature ++ ".lower_ratio", xs.map (fun v => PVal.fin (lower_ratio v)))]) ++
       [(feature ++ ".digit_ratio", xs.map (fun v => PVal.fin (digit_ratio v)))]) := by
    intro h
    simp only [List.map_append, List.map_cons, List.map_nil, List.mem_append,
      List.mem_singleton] at h
    rcases h with (((h | h) | h) | h) | h
    · exact append_ne_of_ne feature (by decide) h
    · exact append_ne_of_ne feature (by decide) h
    · exact append_ne_of_ne feature (by decide) h
    · exact append_ne_of_ne feature (by decide) h
    · exact append_ne_of_ne feature (by decide) h
  simp only [_generate_text_special]
  rw [dfAssign_not_mem hm1]
  simp only [List.nil_append]
  rw [dfAssign_not_mem hm2]
  rw [dfAssign_not_mem hm3]
  rw [dfAssign_not_mem hm4]
  rw [dfAssign_not_mem hm5]
  rw [dfAssign_not_mem hm6]
  have hbase : (((([(feature ++ ".char_count", char_count_col xs)] ++
      [(feature ++ ".word_count", xs.map (fun v => PVal.fin (word_count v)))]) ++
      [(feature ++ ".capital_ratio", xs.map (fun v => PVal.fin (capital_ratio v)))]) ++
      [(feature ++ ".lower_ratio", xs.map (fun v => PVal.fin (lower_ratio v)))]) ++
      [(feature ++ ".digit_ratio", xs.map (fun v => PVal.fin (digit_ratio v)))]) ++
      [(feature ++ ".special_ratio", xs.map (fun v => PVal.fin (special_ratio v)))] =
      base6Cols feature xs := by
    rfl
  rw [hbase]
  rw [foldl_symStep_eq feature xs symbols (base6Cols feature xs) hnd
    (fun s _ => base6_fresh feature xs s) (dfGetCol_base6_char feature xs)]

/-- The full ordered list of output column names for one input column:
the six base statistics then, per symbol in configured order, the
symbol_count and symbol_ratio columns. -/
def statNames (f : String) (symbols : List String) : List String :=
  [f ++ ".char_count", f ++ ".word_count", f ++ ".capital_ratio", f ++ ".lower_ratio",
   f ++ ".digit_ratio", f ++ ".special_ratio"] ++
  symbols.flatMap (fun s => [f ++ ".symbol_count." ++ s, f ++ ".symbol_ratio." ++ s])

theorem map_fst_flatMap_symPair (f : String) (xs : List Value) (symbols : List String) :
    (symbols.flatMap (symPairCols f xs)).map Prod.fst =
      symbols.flatMap (fun s => [f ++ ".symbol_count." ++ s, f ++ ".symbol_ratio." ++ s]) := by
  induction symbols with
  | nil => rfl
  | cons s ss ih =>
    simp only [List.flatMap_cons, List.map_append, ih]
    rfl

theorem gen_cols_names (symbols : List String) (f : String) (idx : List Int) (xs : List Value)
    (hnd : symbols.Nodup) :
    (_generate_text_special symbols f idx xs).cols.map Prod.fst = statNames f symbols := by
  rw [generate_text_special_eq symbols f idx xs hnd]
  simp only [List.map_append]
  rw [map_fst_flatMap_symPair]
  rfl

theorem gen_idx_eq (symbols : List String) (f : String) (idx : List Int) (xs : List Value) :
    (_generate_text_special symbols f idx xs).idx = idx := rfl

theorem gen_cols_lengths (symbols : List String) (f : String) (idx : List Int) (xs : List Value)
    (hnd : symbols.Nodup) :
    ∀ p ∈ (_generate_text_special symbols f idx xs).cols, p.2.length = xs.length := by
  rw [generate_text_special_eq symbols f idx xs hnd]
  intro p hp
  simp only [List.mem_append] at hp
  rcases hp with hp | hp
  · simp only [base6Cols, List.mem_cons, List.not_mem_nil, or_false] at hp
    rcases hp with h | h | h | h | h | h <;> subst h <;>
      simp [char_count_col]
  · obtain ⟨s, -, hmem⟩ := List.mem_flatMap.mp hp
    simp only [symPairCols, List.mem_cons, List.not_mem_nil, or_false] at hmem
    rcases hmem with h | h <;> subst h
    · simp [symbol_count_col]
    · rw [ratio_col_vals_eq]
      simp

theorem statNames_length (f : String) (symbols : List String) :
    (statNames f symbols).length = 6 + 2 * symbols.length := by
  unfold statNames
  rw [List.length_append]
  have h : (symbols.flatMap
      (fun s => [f ++ ".symbol_count." ++ s, f ++ ".symbol_ratio." ++ s])).length =
      2 * symbols.length := by
    induction symbols with
    | nil => rfl
    | cons s ss ih =>
      simp only [List.flatMap_cons, List.length_append, ih, List.length_cons, List.length_nil]
      omega
  rw [h]
  simp

theorem flatMap_statNames_length (symbols : List String) :
    ∀ fs : List String, (fs.flatMap (fun f => statNames f symbols)).length =
      fs.length * (6 + 2 * symbols.length) := by
  intro fs
  induction fs with
  | nil => simp
  | cons f fs ih =>
    simp only [List.flatMap_cons, List.length_append, ih, statNames_length, List.length_cons]
    ring

theorem getCol_length {X : InTable} {f : String} (hc : X.hasCol f = true)
    (hwf : ∀ p ∈ X.cols, p.2.length = X.idx.length) :
    (X.getCol f).length = X.idx.length := by
  unfold InTable.getCol
  cases hfind : X.cols.find? (fun p => p.1 == f) with
  | none =>
    exfalso
    unfold InTable.hasCol at hc
    rw [List.any_eq_true] at hc
    obtain ⟨p, hp, hpe⟩ := hc
    exact (List.find?_eq_none.mp hfind p hp) hpe
  | some p =>
    exact hwf p (List.mem_of_find?_eq_some hfind)

theorem find?_map_fst (X : InTable) : ∀ (fs : List String) (f : String), f ∈ fs →
    (fs.map (fun g => (g, X.getCol g))).find? (fun p => p.1 == f) = some (f, X.getCol f) := by
  intro fs
  induction fs with
  | nil =>
    intro f h
    cases h
  | cons a fs ih =>
    intro f h
    simp only [List.map_cons]
    by_cases haf : a = f
    · subst haf
      rw [List.find?_cons_of_pos _ (by simp)]
    · rw [List.find?_cons_of_neg _ (by simp [haf])]
      refine ih f ?_
      rcases List.mem_cons.mp h with he | hm
      · exact absurd he.symm haf
      · exact hm

theorem restrict_getCol {X : InTable} {fs : List String} {f : String} (h : f ∈ fs) :
    (restrict X fs).getCol f = X.getCol f := by
  have hstep : (restrict X fs).getCol f =
      match (fs.map (fun g => (g, X.getCol g))).find? (fun p => p.1 == f) with
      | some p => p.2
      | none => [] := rfl
  rw [hstep, find?_map_fst X fs f h]

theorem map_flatten_helper (L : List Cols) :
    L.flatten.map Prod.fst = (L.map (fun c => c.map Prod.fst)).flatten := by
  induction L with
  | nil => rfl
  | cons c L ih => simp [ih]

/-- C1 (amended: the configured symbols are pairwise distinct): for a
fitted generator with input columns fs and duplicate-free symbols, on an
input table containing those columns, the transform step succeeds and
returns a table with the input row index, exactly
fs.length * (6 + 2 * symbols.length) columns named column.statistic in
input-column-major, statistic-minor order, every column having one entry
per input row. -/
theorem transform_shape_spec (g : GenState) (X : InTable) (fs : List String)
    (hfit : g._is_fit = true) (hfin : g.features_in = some fs) (hnd : g.symbols.Nodup)
    (hcols : ∀ f ∈ fs, X.hasCol f = true)
    (hwf : ∀ p ∈ X.cols, p.2.length = X.idx.length) :
    ∃ Y : OutTable, transform g X = Except.ok Y ∧ Y.idx = X.idx ∧
      Y.cols.map Prod.fst = fs.flatMap (fun f => statNames f g.symbols) ∧
      Y.cols.length = fs.length * (6 + 2 * g.symbols.length) ∧
      ∀ p ∈ Y.cols, p.2.length = X.idx.length := by
  have hfs : g.features_in.getD [] = fs := by
    rw [hfin]
    rfl
  have htr : transform g X =
      Except.ok (_generate_features_text_special fs g.symbols (restrict X fs)) := by
    unfold transform _transform
    rw [hfit, hfs]
    rfl
  by_cases hemp : fs = []
  · subst hemp
    refine ⟨⟨X.idx, []⟩, ?_, rfl, rfl, by simp, by simp⟩
    rw [htr]
    rfl
  · have hb : fs.isEmpty = false := by
      cases fs with
      | nil => exact absurd rfl hemp
      | cons a l => rfl
    have hY : _generate_features_text_special fs g.symbols (restrict X fs) =
        ⟨X.idx, (fs.map (fun f =>
          (_generate_text_special g.symbols f X.idx ((restrict X fs).getCol f)).cols)).flatten⟩ := by
      unfold _generate_features_text_special
      rw [hb]
      rfl
    have hnames : ((fs.map (fun f =>
        (_generate_text_special g.symbols f X.idx ((restrict X fs).getCol f)).cols)).flatten).map
          Prod.fst = fs.flatMap (fun f => statNames f g.symbols) := by
      rw [map_flatten_helper, List.map_map]
      have hmc : List.map ((fun c => List.map Prod.fst c) ∘ fun f =>
          (_generate_text_special g.symbols f X.idx ((restrict X fs).getCol f)).cols) fs =
          List.map (fun f => statNames f g.symbols) fs :=
        List.map_congr_left (fun f _ => gen_cols_names g.symbols f X.idx
          ((restrict X fs).getCol f) hnd)
      rw [hmc]
      rfl
    rw [htr, hY]
    refine ⟨_, rfl, rfl, hnames, ?_, ?_⟩
    · have hc := congrArg List.length hnames
      rw [List.length_map] at hc
      rw [hc, flatMap_statNames_length]
    · intro p hp
      obtain ⟨sub, hsub, hpsub⟩ := List.mem_flatten.mp hp
      obtain ⟨f, hf, hfe⟩ := List.mem_map.mp hsub
      rw [← hfe] at hpsub
      have hlen := gen_cols_lengths g.symbols f X.idx ((restrict X fs).getCol f) hnd p hpsub
      rw [restrict_getCol hf] at hlen
      rw [hlen, getCol_length (hcols f hf) hwf]

/-- A fitted generator on one input column named a with one symbol. -/
def gC1 : GenState := ⟨true, some ["a"], none, none, ["!"]⟩

/-- A one-row input table with one text column named a. -/
def XC1 : InTable := ⟨[0], [("a", [['h', 'i']])]⟩

/-- Witness for C1 at a concrete fitted generator and table. -/
theorem transform_shape_spec_witness :
    ∃ Y : OutTable, transform gC1 XC1 = Except.ok Y ∧ Y.idx = XC1.idx ∧
      Y.cols.map Prod.fst = (["a"] : List String).flatMap (fun f => statNames f gC1.symbols) ∧
      Y.cols.length = (["a"] : List String).length * (6 + 2 * gC1.symbols.length) ∧
      ∀ p ∈ Y.cols, p.2.length = XC1.idx.length :=
  transform_shape_spec gC1 XC1 ["a"] rfl rfl (by decide) (by decide) (by decide)

/-- The same fitted generator with the symbols list containing a
duplicated symbol. -/
def gC1dup : GenState := ⟨true, some ["a"], none, none, ["!", "!"]⟩

/-- The number of columns carried by a transform result. -/
def outColCount : Except String OutTable → Nat
  | Except.ok Y => Y.cols.length
  | Except.error _ => 0

/-- Counterexample to C1 as stated: with the configured symbols list
containing the symbol ! twice (N = 1 input column, S = 2 configured
symbols), the transform step produces 8 columns and not
N * (6 + 2 * S) = 10, because the second occurrence of the symbol
overwrites the columns of the first in place. -/
theorem transform_shape_cex :
    gC1dup.symbols.length = 2 ∧ outColCount (transform gC1dup XC1) = 8 ∧
      8 ≠ 1 * (6 + 2 * 2) :=
  ⟨rfl, rfl, by decide⟩

/-- C2: a second fit on a fitted instance and a transform on an unfit
instance both fail with the corresponding assertion message, and these
are the only error conditions of the fit_transform / transform surface:
a first fit always succeeds and a transform after a fit always succeeds. -/
theorem fit_guard_spec (g : GenState) (X Y : InTable) :
    (g._is_fit = false →
      ∃ r g2, fit_transform g X = Except.ok (r, g2) ∧ g2._is_fit = true ∧
        fit_transform g2 Y = Except.error errAlreadyFit) ∧
    (g._is_fit = false → transform g X = Except.error errNotFit) ∧
    (g._is_fit = true → fit_transform g X = Except.error errAlreadyFit) ∧
    (g._is_fit = true → ∃ r, transform g X = Except.ok r) := by
  refine ⟨?_, ?_, ?_, ?_⟩
  · intro h
    unfold fit_transform
    rw [h]
    exact ⟨_, _, rfl, rfl, rfl⟩
  · intro h
    unfold transform
    rw [h]
    rfl
  · intro h
    unfold fit_transform
    rw [h]
    rfl
  · intro h
    unfold transform
    rw [h]
    exact ⟨_, rfl⟩

/-- An unfit generator with one symbol and no preset input columns. -/
def gC2 : GenState := ⟨false, none, none, none, ["!"]⟩

/-- Witness for C2: fitting the unfit generator succeeds, a second fit
fails, and transforming before any fit fails. -/
theorem fit_guard_spec_witness :
    (∃ r g2, fit_transform gC2 XC1 = Except.ok (r, g2) ∧ g2._is_fit = true ∧
      fit_transform g2 XC1 = Except.error errAlreadyFit) ∧
    transform gC2 XC1 = Except.error errNotFit :=
  ⟨(fit_guard_spec gC2 XC1 XC1).1 rfl, (fit_guard_spec gC2 XC1 XC1).2.1 rfl⟩

/-- C6: on fitted instances, transform is a pure function of the input
table and the fitted configuration (input columns and symbols); in
particular two calls with the same input give identical output. -/
theorem transform_pure_spec (g g2 : GenState) (X : InTable)
    (h1 : g._is_fit = true) (h2 : g2._is_fit = true)
    (hf : g.features_in = g2.features_in) (hs : g.symbols = g2.symbols) :
    transform g X = transform g2 X := by
  unfold transform _transform
  rw [h1, h2, hf, hs]

/-- A generator fitted like gC1 but with different bookkeeping fields. -/
def gC6 : GenState := ⟨true, some ["a"], some ["zzz"], some [("x", [])], ["!"]⟩

/-- Witness for C6: two fitted states sharing input columns and symbols
but differing in the other fields transform identically. -/
theorem transform_pure_spec_witness : transform gC1 XC1 = transform gC6 XC1 :=
  transform_pure_spec gC1 gC6 XC1 rfl rfl rfl rfl

/-- C7: on an unfit generator, fit_transform succeeds and returns
exactly the table a subsequent transform of the same input yields, and
the recorded special type groups map the single label text_special to
the full output column list. -/
theorem fit_transform_agrees_spec (g : GenState) (X : InTable) (h : g._is_fit = false) :
    ∃ Y g2, fit_transform g X = Except.ok (Y, g2) ∧ transform g2 X = Except.ok Y ∧
      g2.specialGroups = some [(S_TEXT_SPECIAL, Y.cols.map (fun p => p.1))] := by
  unfold fit_transform
  rw [h]
  refine ⟨_, _, rfl, ?_, rfl⟩
  rfl

/-- Witness for C7 at a concrete unfit generator and table. -/
theorem fit_transform_agrees_spec_witness :
    ∃ Y g2, fit_transform gC2 XC1 = Except.ok (Y, g2) ∧ transform g2 XC1 = Except.ok Y ∧
      g2.specialGroups = some [(S_TEXT_SPECIAL, Y.cols.map (fun p => p.1))] :=
  fit_transform_agrees_spec gC2 XC1 rfl

/-- C8: a fitted generator whose configured input column list is empty
transforms any table to the empty table sharing the input row index. -/
theorem transform_empty_features_spec (g : GenState) (X : InTable)
    (hfit : g._is_fit = true) (hfin : g.features_in = some []) :
    transform g X = Except.ok ⟨X.idx, []⟩ := by
  unfold transform _transform _generate_features_text_special
  rw [hfit, hfin]
  rfl

/-- A fitted generator with an empty input column list. -/
def gC8 : GenState := ⟨true, some [], none, none, ["!"]⟩

/-- Witness for C8 at a concrete generator and table. -/
theorem transform_empty_features_spec_witness :
    transform gC8 XC1 = Except.ok ⟨XC1.idx, []⟩ :=
  transform_empty_features_spec gC8 XC1 rfl rfl

end TextSpecialModel
